import Mathlib

/-!
Verification of the microannotate history-transcoding pipeline.

The definitions below are a shallow embedding of the Python sources
(`microannotate/generator.py`, `microannotate/utils.py`,
`microannotate/viewer.py`, `bin/microannotate-generate.py`).
Byte strings are modelled as `List Nat` (byte values), text strings as
`List Char` or `String`.
-/

namespace Microannotate

/-! ### Tokenizer (generator.py, SPLIT_WORD_REGEX and the `.py` variant)

`SPLIT_WORD_REGEX = re.compile(r"(\w+|{})".format(...), re.MULTILINE)` over a
bytes pattern: `\w` is ASCII `[a-zA-Z0-9_]`.  `finditer` scans the content
left to right, emitting non-overlapping matches; at each position the
alternation first tries a maximal `\w+` run, then a single punctuation
character from `POSSIBLE_TOKENS`. -/

/-- ASCII `\w` for a Python bytes pattern: `[a-zA-Z0-9_]`. -/
def isWordByte (b : Nat) : Bool :=
  (48 ≤ b && b ≤ 57) || (65 ≤ b && b ≤ 90) || b == 95 || (97 ≤ b && b ≤ 122)

/-- `POSSIBLE_TOKENS` from generator.py, as byte values:
`{ } [ ] " ' ( ) \ * # / . - < > & ! + % ^ ~ ? : = | ;`. -/
def POSSIBLE_TOKENS : List Nat :=
  [123, 125, 91, 93, 34, 39, 40, 41, 92, 42, 35, 47, 46, 45, 60, 62, 38,
   33, 43, 37, 94, 126, 63, 58, 61, 124, 59]

def isPunctByte (b : Nat) : Bool := POSSIBLE_TOKENS.contains b

/-- Take the maximal leading run of `\w` bytes; returns (run, rest). -/
def takeWordRun : List Nat → List Nat × List Nat
  | [] => ([], [])
  | b :: rest =>
    if isWordByte b then
      ((b :: (takeWordRun rest).1), (takeWordRun rest).2)
    else
      ([], b :: rest)

theorem takeWordRun_snd_length : ∀ l : List Nat, (takeWordRun l).2.length ≤ l.length := by
  intro l
  induction l with
  | nil => simp [takeWordRun]
  | cons b rest ih =>
    by_cases h : isWordByte b
    · simp [takeWordRun, h]
      omega
    · simp [takeWordRun, h]

theorem takeWordRun_append_run : ∀ l : List Nat, (takeWordRun l).1 ++ (takeWordRun l).2 = l := by
  intro l
  induction l with
  | nil => simp [takeWordRun]
  | cons b rest ih =>
    by_cases h : isWordByte b
    · simp [takeWordRun, h, ih]
    · simp [takeWordRun, h]

theorem takeWordRun_all_word : ∀ l : List Nat, ∀ c ∈ (takeWordRun l).1, isWordByte c = true := by
  intro l
  induction l with
  | nil => simp [takeWordRun]
  | cons b rest ih =>
    by_cases h : isWordByte b
    · simp [takeWordRun, h]
      exact ih
    · simp [takeWordRun, h]

theorem takeWordRun_head_not_word :
    ∀ l : List Nat, ∀ c, (takeWordRun l).2.head? = some c → isWordByte c = false := by
  intro l
  induction l with
  | nil => simp [takeWordRun]
  | cons b rest ih =>
    by_cases h : isWordByte b
    · simpa [takeWordRun, h] using ih
    · intro c hc
      simp [takeWordRun, h] at hc
      rw [← hc]
      simpa using h

/-- The matches of `SPLIT_WORD_REGEX.finditer(content)`, in order: the
scanner skips separator bytes, emits maximal word runs and single
punctuation bytes. -/
def splitWord : List Nat → List (List Nat)
  | [] => []
  | b :: rest =>
    if isWordByte b then
      (b :: (takeWordRun rest).1) :: splitWord (takeWordRun rest).2
    else if isPunctByte b then
      [b] :: splitWord rest
    else
      splitWord rest
termination_by l => l.length
decreasing_by
  · exact Nat.lt_succ_of_le (takeWordRun_snd_length rest)
  · exact Nat.lt_succ_self _
  · exact Nat.lt_succ_self _

/-- Python `[ \t]` (the indentation characters of the `.py` regex). -/
def isSpaceTab (b : Nat) : Bool := b == 32 || b == 9

/-- Python bytes `\s`: space, `\t`, `\n`, `\r`, `\v`, `\f`. -/
def isPyWhitespace (b : Nat) : Bool :=
  b == 32 || b == 9 || b == 10 || b == 13 || b == 11 || b == 12

/-- Take the maximal leading run of space/tab bytes; returns (run, rest). -/
def takeSpaceTab : List Nat → List Nat × List Nat
  | [] => ([], [])
  | b :: rest =>
    if isSpaceTab b then
      ((b :: (takeSpaceTab rest).1), (takeSpaceTab rest).2)
    else
      ([], b :: rest)

theorem takeSpaceTab_snd_length : ∀ l : List Nat, (takeSpaceTab l).2.length ≤ l.length := by
  intro l
  induction l with
  | nil => simp [takeSpaceTab]
  | cons b rest ih =>
    by_cases h : isSpaceTab b
    · simp [takeSpaceTab, h]
      omega
    · simp [takeSpaceTab, h]

/-- The matches of `SPLIT_WORD_STARTING_WHITESPACES_REGEX.finditer(content)`
(the `.py` variant), in order.  The boolean is true exactly at positions
where MULTILINE `^` matches (content start or just after a `\n`).  The
first alternative `^[ \t]+(?=\S)` matches the maximal space/tab run at a
line start provided the byte right after the run exists and is not
whitespace (greedy with backtracking: shorter runs always fail the
lookahead because the next byte is again a space or tab, so the
alternative matches exactly the maximal run or not at all). -/
def splitWordPy : Bool → List Nat → List (List Nat)
  | _, [] => []
  | atStart, b :: rest =>
    if atStart && isSpaceTab b then
      match (takeSpaceTab rest).2.head? with
      | some c =>
        if isPyWhitespace c then
          splitWordPy false rest
        else
          (b :: (takeSpaceTab rest).1) :: splitWordPy false (takeSpaceTab rest).2
      | none => splitWordPy false rest
    else if isWordByte b then
      (b :: (takeWordRun rest).1) :: splitWordPy false (takeWordRun rest).2
    else if isPunctByte b then
      [b] :: splitWordPy false rest
    else
      splitWordPy (b == 10) rest
termination_by _ l => l.length
decreasing_by
  all_goals simp only [List.length_cons]
  all_goals first
    | exact Nat.lt_succ_of_le (takeSpaceTab_snd_length rest)
    | exact Nat.lt_succ_of_le (takeWordRun_snd_length rest)
    | exact Nat.lt_succ_self _

/-- Python `path.endswith(suffix)`. -/
def pyEndsWith (path suffix : List Char) : Bool := List.isSuffixOf suffix path

/-- The bytes written by `Generator.write_file` when `tokenize_enabled` is
true: one regex match per line, each line terminated by `b"\n"`
(`f.writelines(word.group(0) + b"\n" for word in pattern.finditer(content))`,
with the pattern chosen by `path.endswith(".py")`). -/
def writeFileTokenized (path : List Char) (content : List Nat) : List Nat :=
  ((if pyEndsWith path ['.', 'p', 'y'] then splitWordPy true content
    else splitWord content).map (fun w => w ++ [10])).flatten

/-- Declarative reading of the fixed splitting rule of the spec: maximal
runs of word bytes are single tokens, each punctuation byte is its own
token, every other byte separates and is dropped, and tokens appear in
content order. -/
inductive Tok : List Nat → List (List Nat) → Prop
  | nil : Tok [] []
  | sep {b : Nat} {rest : List Nat} {ts : List (List Nat)} :
      isWordByte b = false → isPunctByte b = false →
      Tok rest ts → Tok (b :: rest) ts
  | punct {b : Nat} {rest : List Nat} {ts : List (List Nat)} :
      isPunctByte b = true →
      Tok rest ts → Tok (b :: rest) ([b] :: ts)
  | word {run rest : List Nat} {ts : List (List Nat)} :
      run ≠ [] → (∀ c ∈ run, isWordByte c = true) →
      (∀ c, rest.head? = some c → isWordByte c = false) →
      Tok rest ts → Tok (run ++ rest) (run :: ts)

theorem punctByte_not_word {b : Nat} (h : isPunctByte b = true) : isWordByte b = false := by
  simp [isPunctByte, POSSIBLE_TOKENS, List.contains] at h
  simp [isWordByte]
  omega

theorem tok_splitWord : ∀ content : List Nat, Tok content (splitWord content) := by
  intro content
  induction content using splitWord.induct with
  | case1 =>
    rw [splitWord]
    exact Tok.nil
  | case2 b rest h ih =>
    have hsplit : splitWord (b :: rest) = (b :: (takeWordRun rest).1) :: splitWord (takeWordRun rest).2 := by
      rw [splitWord]
      simp [h]
    rw [hsplit]
    have hcontent : b :: rest = (b :: (takeWordRun rest).1) ++ (takeWordRun rest).2 := by
      simp [takeWordRun_append_run rest]
    rw [hcontent]
    refine Tok.word (by simp) ?_ ?_ ih
    · intro c hc
      rcases List.mem_cons.mp hc with rfl | hc
      · exact h
      · exact takeWordRun_all_word rest c hc
    · intro c hc
      exact takeWordRun_head_not_word rest c hc
  | case3 b rest h h2 ih =>
    have hsplit : splitWord (b :: rest) = [b] :: splitWord rest := by
      rw [splitWord]
      simp [h, h2]
    rw [hsplit]
    exact Tok.punct h2 ih
  | case4 b rest h h2 ih =>
    have hsplit : splitWord (b :: rest) = splitWord rest := by
      rw [splitWord]
      simp [h, h2]
    rw [hsplit]
    exact Tok.sep (by simpa using h) (by simpa using h2) ih

theorem takeWordRun_of_word_append {run rest : List Nat}
    (hw : ∀ c ∈ run, isWordByte c = true)
    (hr : ∀ c, rest.head? = some c → isWordByte c = false) :
    takeWordRun (run ++ rest) = (run, rest) := by
  induction run with
  | nil =>
    cases rest with
    | nil => simp [takeWordRun]
    | cons c r =>
      have : isWordByte c = false := hr c (by simp)
      simp [takeWordRun, this]
  | cons d run' ih =>
    have hd : isWordByte d = true := hw d (by simp)
    have := ih (fun c hc => hw c (by simp [hc]))
    simp [takeWordRun, hd, this]

theorem tok_unique {content : List Nat} {ts : List (List Nat)}
    (h : Tok content ts) : ts = splitWord content := by
  induction h with
  | nil => simp [splitWord]
  | sep hw hp _ ih =>
    rw [splitWord]
    simp [hw, hp]
    exact ih
  | punct hp _ ih =>
    rw [splitWord]
    simp [punctByte_not_word hp, hp]
    exact ih
  | word hne hw hr _ ih =>
    rename_i run rest ts' _
    cases run with
    | nil => exact absurd rfl hne
    | cons c run' =>
      have hc : isWordByte c = true := hw c (by simp)
      have htake : takeWordRun (run' ++ rest) = (run', rest) :=
        takeWordRun_of_word_append (fun d hd => hw d (by simp [hd])) hr
      rw [List.cons_append, splitWord]
      simp [hc, htake]
      exact ih

theorem splitWord_tokens_wf :
    ∀ content : List Nat, ∀ t ∈ splitWord content,
      t ≠ [] ∧ ∀ c ∈ t, (isWordByte c || isPunctByte c) = true := by
  intro content
  induction content using splitWord.induct with
  | case1 => simp [splitWord]
  | case2 b rest h ih =>
    intro t ht
    rw [splitWord] at ht
    simp [h] at ht
    rcases ht with rfl | ht
    · refine ⟨by simp, ?_⟩
      intro c hc
      rcases List.mem_cons.mp hc with rfl | hc
      · simp [h]
      · simp [takeWordRun_all_word rest c hc]
    · exact ih t ht
  | case3 b rest h h2 ih =>
    intro t ht
    rw [splitWord] at ht
    simp [h, h2] at ht
    rcases ht with rfl | ht
    · exact ⟨by simp, by intro c hc; simp at hc; simp [hc, h2]⟩
    · exact ih t ht
  | case4 b rest h h2 ih =>
    intro t ht
    rw [splitWord] at ht
    simp [h, h2] at ht
    exact ih t ht

end Microannotate

namespace Microannotate

/-! ### Supporting lemmas for the `.py` tokenizer -/

theorem takeSpaceTab_append_run : ∀ l : List Nat, (takeSpaceTab l).1 ++ (takeSpaceTab l).2 = l := by
  intro l
  induction l with
  | nil => simp [takeSpaceTab]
  | cons b rest ih =>
    by_cases h : isSpaceTab b
    · simp [takeSpaceTab, h, ih]
    · simp [takeSpaceTab, h]

theorem takeSpaceTab_all : ∀ l : List Nat, ∀ c ∈ (takeSpaceTab l).1, isSpaceTab c = true := by
  intro l
  induction l with
  | nil => simp [takeSpaceTab]
  | cons b rest ih =>
    by_cases h : isSpaceTab b
    · simp [takeSpaceTab, h]
      exact ih
    · simp [takeSpaceTab, h]

theorem spaceTab_not_word {b : Nat} (h : isSpaceTab b = true) : isWordByte b = false := by
  simp [isSpaceTab] at h
  rcases h with rfl | rfl <;> decide

theorem spaceTab_not_punct {b : Nat} (h : isSpaceTab b = true) : isPunctByte b = false := by
  simp [isSpaceTab] at h
  rcases h with rfl | rfl <;> decide

theorem takeWordRun_append_not_word_head (l m : List Nat)
    (hm : ∀ c, m.head? = some c → isWordByte c = false) :
    takeWordRun (l ++ m) = ((takeWordRun l).1, (takeWordRun l).2 ++ m) := by
  induction l with
  | nil =>
    cases m with
    | nil => simp [takeWordRun]
    | cons c r =>
      have : isWordByte c = false := hm c (by simp)
      simp [takeWordRun, this]
  | cons b rest ih =>
    by_cases h : isWordByte b
    · simp [takeWordRun, h, ih]
    · simp [takeWordRun, h]

theorem takeSpaceTab_append_not_spacetab_head (l m : List Nat)
    (hm : ∀ c, m.head? = some c → isSpaceTab c = false) :
    takeSpaceTab (l ++ m) = ((takeSpaceTab l).1, (takeSpaceTab l).2 ++ m) := by
  induction l with
  | nil =>
    cases m with
    | nil => simp [takeSpaceTab]
    | cons c r =>
      have : isSpaceTab c = false := hm c (by simp)
      simp [takeSpaceTab, this]
  | cons b rest ih =>
    by_cases h : isSpaceTab b
    · simp [takeSpaceTab, h, ih]
    · simp [takeSpaceTab, h]

theorem splitWord_spacetab_skip (ws rest : List Nat)
    (h : ∀ c ∈ ws, isSpaceTab c = true) :
    splitWord (ws ++ rest) = splitWord rest := by
  induction ws with
  | nil => simp
  | cons b ws' ih =>
    have hb : isSpaceTab b = true := h b (by simp)
    rw [List.cons_append, splitWord]
    simp [spaceTab_not_word hb, spaceTab_not_punct hb]
    exact ih (fun c hc => h c (by simp [hc]))

/-- Once the scanner is past a line start, the `atStart` flag is false and
it recurses exactly like the non-`.py` scanner until the next newline. -/
theorem splitWordPy_false_append (l : List Nat) :
    ∀ rest : List Nat, 10 ∉ l →
      splitWordPy false (l ++ 10 :: rest) = splitWord l ++ splitWordPy true rest := by
  induction l using splitWord.induct with
  | case1 =>
    intro rest _
    rw [List.nil_append, splitWordPy, splitWord]
    have h1 : isWordByte 10 = false := by decide
    have h2 : isPunctByte 10 = false := by decide
    simp [h1, h2]
  | case2 b rest' h ih =>
    intro rest hmem
    have hslack : 10 ∉ (takeWordRun rest').2 := by
      intro hx
      apply hmem
      have := takeWordRun_append_run rest'
      exact List.mem_cons_of_mem b (this ▸ List.mem_append_right _ hx)
    have htake := takeWordRun_append_not_word_head rest' (10 :: rest)
      (by intro c hc; simp at hc; rw [← hc]; decide)
    rw [List.cons_append, splitWordPy, splitWord]
    simp only [h, if_true, Bool.false_and, Bool.false_eq_true, if_false, htake]
    rw [ih rest hslack]
    simp
  | case3 b rest' h h2 ih =>
    intro rest hmem
    rw [List.cons_append, splitWordPy, splitWord]
    simp only [h, h2, Bool.false_and, Bool.false_eq_true, if_false, if_true]
    rw [ih rest (fun hx => hmem (List.mem_cons_of_mem b hx))]
    simp
  | case4 b rest' h h2 ih =>
    intro rest hmem
    have hb10 : b ≠ 10 := fun hx => hmem (hx ▸ List.mem_cons_self b rest')
    rw [List.cons_append, splitWordPy, splitWord]
    simp only [h, h2, Bool.false_and, Bool.false_eq_true, if_false]
    have : (b == 10) = false := by simpa using hb10
    rw [this]
    exact ih rest (fun hx => hmem (List.mem_cons_of_mem b hx))

/-- Variant of `splitWordPy_false_append` for the final line (no newline). -/
theorem splitWordPy_false_noNL (l : List Nat) :
    10 ∉ l → splitWordPy false l = splitWord l := by
  induction l using splitWord.induct with
  | case1 =>
    intro _
    rw [splitWordPy, splitWord]
  | case2 b rest' h ih =>
    intro hmem
    have hslack : 10 ∉ (takeWordRun rest').2 := by
      intro hx
      apply hmem
      have := takeWordRun_append_run rest'
      exact List.mem_cons_of_mem b (this ▸ List.mem_append_right _ hx)
    rw [splitWordPy, splitWord]
    simp only [h, if_true, Bool.false_and, Bool.false_eq_true, if_false]
    rw [ih hslack]
  | case3 b rest' h h2 ih =>
    intro hmem
    rw [splitWordPy, splitWord]
    simp only [h, h2, Bool.false_and, Bool.false_eq_true, if_false, if_true]
    rw [ih (fun hx => hmem (List.mem_cons_of_mem b hx))]
  | case4 b rest' h h2 ih =>
    intro hmem
    have hb10 : b ≠ 10 := fun hx => hmem (hx ▸ List.mem_cons_self b rest')
    rw [splitWordPy, splitWord]
    simp only [h, h2, Bool.false_and, Bool.false_eq_true, if_false]
    have : (b == 10) = false := by simpa using hb10
    rw [this]
    exact ih (fun hx => hmem (List.mem_cons_of_mem b hx))

/-- When the first byte of a line is not a space or tab, the indentation
alternative cannot fire and the `atStart` flag is irrelevant. -/
theorem splitWordPy_true_not_spacetab {b : Nat} (m : List Nat)
    (h : isSpaceTab b = false) :
    splitWordPy true (b :: m) = splitWordPy false (b :: m) := by
  rw [splitWordPy, splitWordPy]
  simp [h]

/-- Python `s.split(sep)` for a one-element separator: the list of
segments between separator occurrences (`"".split` gives one empty
segment, a trailing separator yields a trailing empty segment). -/
def pySplitSep {α : Type} [DecidableEq α] (sep : α) : List α → List (List α)
  | [] => [[]]
  | a :: rest =>
    if a = sep then
      [] :: pySplitSep sep rest
    else
      match pySplitSep sep rest with
      | l :: ls => (a :: l) :: ls
      | [] => [[a]]

theorem pySplitSep_ne_nil {α : Type} [DecidableEq α] (sep : α) :
    ∀ l : List α, pySplitSep sep l ≠ [] := by
  intro l
  induction l with
  | nil => simp [pySplitSep]
  | cons a rest ih =>
    by_cases h : a = sep
    · simp [pySplitSep, h]
    · simp only [pySplitSep, h, if_false]
      cases hps : pySplitSep sep rest with
      | nil => simp
      | cons l ls => simp

theorem pySplitSep_of_not_mem {α : Type} [DecidableEq α] {sep : α} {l : List α}
    (h : sep ∉ l) : pySplitSep sep l = [l] := by
  induction l with
  | nil => simp [pySplitSep]
  | cons a rest ih =>
    have ha : a ≠ sep := fun hx => h (hx ▸ List.mem_cons_self a rest)
    have := ih (fun hx => h (List.mem_cons_of_mem a hx))
    simp [pySplitSep, ha, this]

theorem pySplitSep_append {α : Type} [DecidableEq α] {sep : α} {l : List α}
    (rest : List α) (h : sep ∉ l) :
    pySplitSep sep (l ++ sep :: rest) = l :: pySplitSep sep rest := by
  induction l with
  | nil => simp [pySplitSep]
  | cons a l' ih =>
    have ha : a ≠ sep := fun hx => h (hx ▸ List.mem_cons_self a l')
    have := ih (fun hx => h (List.mem_cons_of_mem a hx))
    rw [List.cons_append]
    simp [pySplitSep, ha, this]

/-- Whether the `.py` pattern emits an extra indentation token for a
physical line: the maximal leading space/tab run must be non-empty and the
byte right after it must exist and not be whitespace. -/
def pyIndentOk (line : List Nat) : Bool :=
  !(takeSpaceTab line).1.isEmpty &&
    (match (takeSpaceTab line).2.head? with
     | some c => !isPyWhitespace c
     | none => false)

/-- The tokens the `.py` pattern emits for one physical line. -/
def pyLineTokens (line : List Nat) : List (List Nat) :=
  if pyIndentOk line then (takeSpaceTab line).1 :: splitWord line
  else splitWord line

/-- Processing a full line from its line start: the scanner emits the
line's tokens and resumes at the next line start. -/
theorem splitWordPy_true_line (l : List Nat) (rest : List Nat) (hmem : 10 ∉ l) :
    splitWordPy true (l ++ 10 :: rest) = pyLineTokens l ++ splitWordPy true rest := by
  cases l with
  | nil =>
    rw [List.nil_append, splitWordPy]
    have h1 : isWordByte 10 = false := by decide
    have h2 : isPunctByte 10 = false := by decide
    have h3 : isSpaceTab 10 = false := by decide
    simp [h1, h2, h3, pyLineTokens, pyIndentOk, takeSpaceTab, splitWord]
  | cons b l' =>
    by_cases hst : isSpaceTab b
    · have hl'mem : 10 ∉ l' := fun hx => hmem (List.mem_cons_of_mem b hx)
      have htake := takeSpaceTab_append_not_spacetab_head l' (10 :: rest)
        (by intro c hc; simp at hc; rw [← hc]; decide)
      have hslack : 10 ∉ (takeSpaceTab l').2 := by
        intro hx
        apply hl'mem
        have := takeSpaceTab_append_run l'
        exact this ▸ List.mem_append_right _ hx
      rw [List.cons_append, splitWordPy]
      simp only [hst, Bool.true_and, if_true, htake]
      cases hsl : (takeSpaceTab l').2 with
      | nil =>
        -- the space/tab run extends to the newline: lookahead sees `\n`
        simp only [hsl, List.nil_append, List.head?_cons]
        have : isPyWhitespace 10 = true := by decide
        rw [this]
        simp only [if_true]
        rw [splitWordPy_false_append l' rest hl'mem]
        have : pyLineTokens (b :: l') = splitWord l' := by
          have : splitWord (b :: l') = splitWord l' := by
            rw [splitWord]
            simp [spaceTab_not_word hst, spaceTab_not_punct hst]
          simp [pyLineTokens, pyIndentOk, takeSpaceTab, hst, hsl, this]
        rw [this]
      | cons c slack' =>
        simp only [hsl, List.cons_append, List.head?_cons]
        by_cases hwc : isPyWhitespace c
        · rw [if_pos hwc]
          rw [splitWordPy_false_append l' rest hl'mem]
          have : pyLineTokens (b :: l') = splitWord l' := by
            have hsw : splitWord (b :: l') = splitWord l' := by
              rw [splitWord]
              simp [spaceTab_not_word hst, spaceTab_not_punct hst]
            simp [pyLineTokens, pyIndentOk, takeSpaceTab, hst, hsl, hwc, hsw]
          rw [this]
        · rw [if_neg hwc]
          have h10slack : 10 ∉ c :: slack' := hsl ▸ hslack
          rw [← List.cons_append, splitWordPy_false_append (c :: slack') rest h10slack]
          have hsw : splitWord (b :: l') = splitWord (c :: slack') := by
            have hdecomp : b :: l' = (b :: (takeSpaceTab l').1) ++ (c :: slack') := by
              rw [← hsl]
              simp [takeSpaceTab_append_run l']
            rw [hdecomp]
            exact splitWord_spacetab_skip _ _ (by
              intro d hd
              rcases List.mem_cons.mp hd with rfl | hd
              · exact hst
              · exact takeSpaceTab_all l' d hd)
          have : pyLineTokens (b :: l') = (b :: (takeSpaceTab l').1) :: splitWord (c :: slack') := by
            simp [pyLineTokens, pyIndentOk, takeSpaceTab, hst, hsl, hwc, hsw]
          rw [this]
          simp
    · have hst' : isSpaceTab b = false := by simpa using hst
      rw [List.cons_append, splitWordPy_true_not_spacetab _ hst', ← List.cons_append,
        splitWordPy_false_append (b :: l') rest hmem]
      have : pyLineTokens (b :: l') = splitWord (b :: l') := by
        simp [pyLineTokens, pyIndentOk, takeSpaceTab, hst]
      rw [this]

/-- Variant of `splitWordPy_true_line` for the final line. -/
theorem splitWordPy_true_noNL (l : List Nat) (hmem : 10 ∉ l) :
    splitWordPy true l = pyLineTokens l := by
  cases l with
  | nil =>
    rw [splitWordPy]
    simp [pyLineTokens, pyIndentOk, takeSpaceTab, splitWord]
  | cons b l' =>
    by_cases hst : isSpaceTab b
    · have hl'mem : 10 ∉ l' := fun hx => hmem (List.mem_cons_of_mem b hx)
      have hslack : 10 ∉ (takeSpaceTab l').2 := by
        intro hx
        apply hl'mem
        have := takeSpaceTab_append_run l'
        exact this ▸ List.mem_append_right _ hx
      rw [splitWordPy]
      simp only [hst, Bool.true_and, if_true]
      cases hsl : (takeSpaceTab l').2 with
      | nil =>
        simp only [List.head?_nil]
        rw [splitWordPy_false_noNL l' hl'mem]
        have : pyLineTokens (b :: l') = splitWord l' := by
          have hsw : splitWord (b :: l') = splitWord l' := by
            rw [splitWord]
            simp [spaceTab_not_word hst, spaceTab_not_punct hst]
          simp [pyLineTokens, pyIndentOk, takeSpaceTab, hst, hsl, hsw]
        rw [this]
      | cons c slack' =>
        simp only [List.head?_cons]
        by_cases hwc : isPyWhitespace c
        · rw [if_pos hwc]
          rw [splitWordPy_false_noNL l' hl'mem]
          have : pyLineTokens (b :: l') = splitWord l' := by
            have hsw : splitWord (b :: l') = splitWord l' := by
              rw [splitWord]
              simp [spaceTab_not_word hst, spaceTab_not_punct hst]
            simp [pyLineTokens, pyIndentOk, takeSpaceTab, hst, hsl, hwc, hsw]
          rw [this]
        · rw [if_neg hwc]
          have h10slack : 10 ∉ c :: slack' := hsl ▸ hslack
          rw [splitWordPy_false_noNL (c :: slack') h10slack]
          have hsw : splitWord (b :: l') = splitWord (c :: slack') := by
            have hdecomp : b :: l' = (b :: (takeSpaceTab l').1) ++ (c :: slack') := by
              rw [← hsl]
              simp [takeSpaceTab_append_run l']
            rw [hdecomp]
            exact splitWord_spacetab_skip _ _ (by
              intro d hd
              rcases List.mem_cons.mp hd with rfl | hd
              · exact hst
              · exact takeSpaceTab_all l' d hd)
          have : pyLineTokens (b :: l') = (b :: (takeSpaceTab l').1) :: splitWord (c :: slack') := by
            simp [pyLineTokens, pyIndentOk, takeSpaceTab, hst, hsl, hwc, hsw]
          rw [this]
    · have hst' : isSpaceTab b = false := by simpa using hst
      rw [splitWordPy_true_not_spacetab _ hst', splitWordPy_false_noNL (b :: l') hmem]
      have : pyLineTokens (b :: l') = splitWord (b :: l') := by
        simp [pyLineTokens, pyIndentOk, takeSpaceTab, hst]
      rw [this]

theorem exists_newline_split {content : List Nat} (h : 10 ∈ content) :
    ∃ l rest, content = l ++ 10 :: rest ∧ 10 ∉ l := by
  induction content with
  | nil => cases h
  | cons b r ih =>
    by_cases hb : b = 10
    · exact ⟨[], r, by simp [hb], by simp⟩
    · rcases List.mem_cons.mp h with hx | hx
      · exact absurd hx.symm hb
      · obtain ⟨l, rest, rfl, hl⟩ := ih hx
        exact ⟨b :: l, rest, by simp, by
          intro hc
          rcases List.mem_cons.mp hc with hc | hc
          · exact hb hc.symm
          · exact hl hc⟩

theorem splitWordPy_lines_aux : ∀ (n : Nat) (content : List Nat), content.length ≤ n →
    splitWordPy true content = ((pySplitSep 10 content).map pyLineTokens).flatten := by
  intro n
  induction n with
  | zero =>
    intro content hc
    have hcontent : content = [] := List.length_eq_zero.mp (Nat.le_zero.mp hc)
    subst hcontent
    rw [splitWordPy_true_noNL [] (by simp), pySplitSep_of_not_mem (by simp)]
    simp
  | succ n ih =>
    intro content hc
    by_cases h : 10 ∈ content
    · obtain ⟨l, rest, rfl, hl⟩ := exists_newline_split h
      rw [splitWordPy_true_line l rest hl, pySplitSep_append rest hl]
      have hlen : rest.length ≤ n := by
        simp at hc
        omega
      rw [ih rest hlen]
      simp
    · rw [splitWordPy_true_noNL content h, pySplitSep_of_not_mem h]
      simp

/-- The `.py` tokenizer, characterized line by line. -/
theorem splitWordPy_lines (content : List Nat) :
    splitWordPy true content = ((pySplitSep 10 content).map pyLineTokens).flatten :=
  splitWordPy_lines_aux content.length content le_rfl

end Microannotate

namespace Microannotate

/-- C1: for every path not ending in `.py` and every byte content, the
tokenized output written by `write_file` consists of exactly the matches of
the fixed rule applied to the content — maximal runs of word characters as
single tokens, each character of the fixed punctuation set as its own
single-character token — in order of appearance, one token per output
line, each line terminated by a newline, all other characters producing no
token. -/
theorem c1_tokenized_output (path : List Char) (content : List Nat)
    (h : pyEndsWith path ['.', 'p', 'y'] = false) :
    writeFileTokenized path content
        = ((splitWord content).map (fun w => w ++ [10])).flatten
    ∧ Tok content (splitWord content)
    ∧ (∀ ts, Tok content ts → ts = splitWord content)
    ∧ (∀ t ∈ splitWord content, t ≠ [] ∧ t.contains 10 = false) := by
  refine ⟨?_, tok_splitWord content, fun ts hts => tok_unique hts, ?_⟩
  · simp [writeFileTokenized, h]
  · intro t ht
    obtain ⟨hne, hall⟩ := splitWord_tokens_wf content t ht
    refine ⟨hne, ?_⟩
    by_contra hcon
    have h10 : (10 : Nat) ∈ t := by
      have hc : t.contains 10 = true := by
        cases hcc : t.contains 10
        · exact absurd hcc hcon
        · rfl
      exact List.elem_iff.mp hc
    have := hall 10 h10
    simp [isWordByte, isPunctByte, POSSIBLE_TOKENS] at this

theorem c1_tokenized_output_witness :
    writeFileTokenized ['a', '.', 'c'] [105, 110, 116, 32, 59]
        = ((splitWord [105, 110, 116, 32, 59]).map (fun w => w ++ [10])).flatten
    ∧ Tok [105, 110, 116, 32, 59] (splitWord [105, 110, 116, 32, 59])
    ∧ splitWord [105, 110, 116, 32, 59] = [[105, 110, 116], [59]] := by
  have h := c1_tokenized_output ['a', '.', 'c'] [105, 110, 116, 32, 59] (by decide)
  exact ⟨h.1, h.2.1, by simp [splitWord, takeWordRun, isWordByte, isPunctByte, POSSIBLE_TOKENS]⟩

/-- Claim C8's own per-line rule, written from the claim's words for
comparison with the code: every non-blank physical line contributes its
leading whitespace run (when present) as an extra token before the line's
other tokens; whitespace-only lines contribute nothing. -/
def claimC8Tokens (content : List Nat) : List (List Nat) :=
  ((pySplitSep 10 content).map (fun line =>
    if line.all isPyWhitespace then []
    else
      (if (line.takeWhile isPyWhitespace).isEmpty then []
       else [line.takeWhile isPyWhitespace]) ++ splitWord line)).flatten

/-- C8 counterexample: on content `b" \ra"` (one non-blank physical line
whose leading whitespace run is `" \r"`), the `.py` tokenizer emits only
the token `a` — no leading-whitespace token — because the regex
`^[ \t]+(?=\S)` fails when the byte after the space/tab run is another
whitespace byte (here `\r`).  The claim predicts an extra leading token. -/
theorem c8_counterexample :
    writeFileTokenized ['a', '.', 'p', 'y'] [32, 13, 97] = [97, 10]
    ∧ claimC8Tokens [32, 13, 97] = [[32, 13], [97]]
    ∧ ((claimC8Tokens [32, 13, 97]).map (fun w => w ++ [10])).flatten = [32, 13, 10, 97, 10]
    ∧ writeFileTokenized ['a', '.', 'p', 'y'] [32, 13, 97]
        ≠ ((claimC8Tokens [32, 13, 97]).map (fun w => w ++ [10])).flatten := by
  have hsw : splitWordPy true [32, 13, 97] = [[97]] := by
    simp [splitWordPy, takeSpaceTab, takeWordRun, isWordByte, isPunctByte,
      POSSIBLE_TOKENS, isSpaceTab, isPyWhitespace]
  have hp : pyEndsWith ['a', '.', 'p', 'y'] ['.', 'p', 'y'] = true := by decide
  have hclaim : claimC8Tokens [32, 13, 97] = [[32, 13], [97]] := by
    simp [claimC8Tokens, pySplitSep, splitWord, takeWordRun, isWordByte, isPunctByte,
      POSSIBLE_TOKENS, isPyWhitespace, List.takeWhile, List.all]
  refine ⟨?_, hclaim, ?_, ?_⟩
  · simp [writeFileTokenized, hp, hsw]
  · rw [hclaim]
    simp
  · rw [hclaim]
    simp [writeFileTokenized, hp, hsw]

theorem pyWhite_not_word {b : Nat} (h : isPyWhitespace b = true) : isWordByte b = false := by
  simp [isPyWhitespace] at h
  simp [isWordByte]
  omega

theorem pyWhite_not_punct {b : Nat} (h : isPyWhitespace b = true) : isPunctByte b = false := by
  simp [isPyWhitespace] at h
  simp [isPunctByte, POSSIBLE_TOKENS, List.contains]
  omega

theorem splitWord_all_white {l : List Nat} (h : ∀ c ∈ l, isPyWhitespace c = true) :
    splitWord l = [] := by
  induction l with
  | nil => rw [splitWord]
  | cons b rest ih =>
    have hb := h b (by simp)
    rw [splitWord]
    simp [pyWhite_not_word hb, pyWhite_not_punct hb]
    exact ih (fun c hc => h c (by simp [hc]))

/-- C8 amended: for a `.py` path the tokenizer works line by line; a
physical line contributes its maximal leading space-or-tab run as one
extra token before the line's other tokens exactly when that run is
non-empty and the byte immediately after it exists and is not whitespace
(so in particular whitespace-only lines contribute no token at all, and a
non-blank line whose space/tab run is followed by another whitespace byte
such as `\r` gets no indentation token). -/
theorem c8_indentation_tokens (path : List Char) (content : List Nat)
    (h : pyEndsWith path ['.', 'p', 'y'] = true) :
    writeFileTokenized path content
        = ((splitWordPy true content).map (fun w => w ++ [10])).flatten
    ∧ splitWordPy true content = ((pySplitSep 10 content).map pyLineTokens).flatten
    ∧ (∀ line : List Nat, pyIndentOk line = true →
        pyLineTokens line = (takeSpaceTab line).1 :: splitWord line
        ∧ (takeSpaceTab line).1 ≠ []
        ∧ (∀ c ∈ (takeSpaceTab line).1, isSpaceTab c = true)
        ∧ ∃ c, (takeSpaceTab line).2.head? = some c ∧ isPyWhitespace c = false)
    ∧ (∀ line : List Nat, pyIndentOk line = false → pyLineTokens line = splitWord line)
    ∧ (∀ line : List Nat, (∀ c ∈ line, isPyWhitespace c = true) → pyLineTokens line = []) := by
  refine ⟨?_, splitWordPy_lines content, ?_, ?_, ?_⟩
  · simp [writeFileTokenized, h]
  · intro line hok
    refine ⟨by simp [pyLineTokens, hok], ?_, fun c hc => takeSpaceTab_all line c hc, ?_⟩
    · intro hemp
      rw [pyIndentOk, hemp] at hok
      simp at hok
    · rw [pyIndentOk] at hok
      cases hh : (takeSpaceTab line).2.head? with
      | none =>
        rw [hh] at hok
        simp at hok
      | some c =>
        rw [hh] at hok
        simp at hok
        exact ⟨c, rfl, by simpa using hok.2⟩
  · intro line hok
    simp [pyLineTokens, hok]
  · intro line hall
    have hsplit : splitWord line = [] := splitWord_all_white hall
    have hok : pyIndentOk line = false := by
      rw [pyIndentOk]
      cases hh : (takeSpaceTab line).2.head? with
      | none => simp
      | some c =>
        have hc : c ∈ (takeSpaceTab line).2 := List.mem_of_mem_head? hh
        have : c ∈ line := by
          rw [← takeSpaceTab_append_run line]
          exact List.mem_append_right _ hc
        simp [hall c this]
    simp [pyLineTokens, hok, hsplit]

theorem c8_indentation_tokens_witness :
    writeFileTokenized ['m', '.', 'p', 'y'] [32, 32, 97, 10, 32, 10]
        = ((splitWordPy true [32, 32, 97, 10, 32, 10]).map (fun w => w ++ [10])).flatten
    ∧ splitWordPy true [32, 32, 97, 10, 32, 10] = [[32, 32], [97]] := by
  have h := c8_indentation_tokens ['m', '.', 'p', 'y'] [32, 32, 97, 10, 32, 10] (by decide)
  refine ⟨h.1, ?_⟩
  simp [splitWordPy, takeSpaceTab, takeWordRun, isWordByte, isPunctByte,
    POSSIBLE_TOKENS, isSpaceTab, isPyWhitespace]

/-! ### Commit message construction and the original-commit trailer
(`Generator.convert` in generator.py, `get_original_hash` in utils.py) -/

/-- The literal marker of `ORIGINAL_COMMIT_REGEX` and of the message
format string: `"UltraBlame original commit: "`. -/
def ORIGINAL_COMMIT_MARKER : List Char :=
  ['U', 'l', 't', 'r', 'a', 'B', 'l', 'a', 'm', 'e', ' ',
   'o', 'r', 'i', 'g', 'i', 'n', 'a', 'l', ' ',
   'c', 'o', 'm', 'm', 'i', 't', ':', ' ']

/-- The character class `[0-9a-f]` of `ORIGINAL_COMMIT_REGEX`. -/
def isHexLowerChar (c : Char) : Bool :=
  ('0' ≤ c && c ≤ '9') || ('a' ≤ c && c ≤ 'f')

/-- Drop a literal from the front of a character list, if present. -/
def dropLit : List Char → List Char → Option (List Char)
  | [], l => some l
  | _ :: _, [] => none
  | p :: ps, c :: cs => if p = c then dropLit ps cs else none

/-- Try to match `UltraBlame original commit: ([0-9a-f]{40})` at the head
of `l`; on success return the capture group (the 40 hex characters). -/
def trailerMatchAt (l : List Char) : Option (List Char) :=
  (dropLit ORIGINAL_COMMIT_MARKER l).bind (fun r =>
    if (r.take 40).length == 40 && (r.take 40).all isHexLowerChar then
      some (r.take 40)
    else none)

/-- `ORIGINAL_COMMIT_REGEX.search(message).group(1)`: the capture of the
leftmost match of the trailer pattern, scanning left to right. -/
def searchTrailer : List Char → Option (List Char)
  | [] => none
  | c :: rest =>
    match trailerMatchAt (c :: rest) with
    | some h => some h
    | none => searchTrailer rest

/-- Python `desc.replace("@", "")`. -/
def pyRemoveAt (s : List Char) : List Char := s.filter (fun c => c ≠ '@')

/-- The destination commit message built by `Generator.convert`:
`f"{desc}\n\nUltraBlame original commit: {commit.node}"` where `desc` is
the original description with every `@` removed. -/
def convertMessage (desc node : List Char) : List Char :=
  pyRemoveAt desc ++ ('\n' :: '\n' :: (ORIGINAL_COMMIT_MARKER ++ node))

theorem dropLit_some_iff : ∀ (p l r : List Char), dropLit p l = some r ↔ l = p ++ r := by
  intro p
  induction p with
  | nil =>
    intro l r
    simp [dropLit]
  | cons x ps ih =>
    intro l r
    cases l with
    | nil => simp [dropLit]
    | cons c cs =>
      by_cases hx : x = c
      · subst hx
        simp [dropLit, ih]
      · simp [dropLit, hx]
        intro hc
        exact fun h2 => hx hc.symm

theorem trailerMatchAt_some_iff {l h : List Char} :
    trailerMatchAt l = some h ↔
      ∃ r, l = ORIGINAL_COMMIT_MARKER ++ (h ++ r) ∧ h.length = 40
        ∧ h.all isHexLowerChar = true := by
  constructor
  · intro hm
    rw [trailerMatchAt] at hm
    cases hd : dropLit ORIGINAL_COMMIT_MARKER l with
    | none =>
      rw [hd] at hm
      simp at hm
    | some r0 =>
      rw [hd] at hm
      by_cases hc : ((r0.take 40).length == 40 && (r0.take 40).all isHexLowerChar) = true
      · simp only [Option.some_bind, if_pos hc] at hm
        obtain ⟨hlen, hhex⟩ := Bool.and_eq_true_iff.mp hc
        have hh : h = r0.take 40 := (Option.some_inj.mp hm).symm
        refine ⟨r0.drop 40, ?_, ?_, ?_⟩
        · rw [(dropLit_some_iff _ _ _).mp hd, hh, List.take_append_drop]
        · rw [hh]
          simpa using hlen
        · rw [hh]; exact hhex
      · simp only [Option.some_bind, if_neg hc] at hm
        cases hm
  · rintro ⟨r, rfl, hlen, hhex⟩
    have hd : dropLit ORIGINAL_COMMIT_MARKER (ORIGINAL_COMMIT_MARKER ++ (h ++ r)) = some (h ++ r) :=
      (dropLit_some_iff _ _ _).mpr rfl
    rw [trailerMatchAt, hd]
    have htake : List.take 40 (h ++ r) = h := by
      rw [← hlen]
      exact List.take_left h r
    simp only [Option.some_bind, htake]
    simp [hlen, hhex]

theorem hexAll_no_newline {h : List Char} (hx : h.all isHexLowerChar = true) :
    ('\n' : Char) ∉ h := by
  intro hmem
  have := List.all_eq_true.mp hx '\n' hmem
  simp [isHexLowerChar] at this

theorem searchTrailer_none_parts {c : Char} {d : List Char}
    (h : searchTrailer (c :: d) = none) :
    trailerMatchAt (c :: d) = none ∧ searchTrailer d = none := by
  rw [searchTrailer] at h
  cases hm : trailerMatchAt (c :: d) with
  | some x => rw [hm] at h; cases h
  | none => rw [hm] at h; exact ⟨rfl, h⟩

/-- Key recovery lemma: if the (already `@`-stripped) description contains
no trailer-pattern match of its own, the leftmost match in the full
message is the appended trailer, and its capture is exactly `node`. -/
theorem searchTrailer_message (d node : List Char)
    (hn : node.length = 40) (hx : node.all isHexLowerChar = true)
    (hd : searchTrailer d = none) :
    searchTrailer (d ++ ('\n' :: '\n' :: (ORIGINAL_COMMIT_MARKER ++ node))) = some node := by
  induction d with
  | nil =>
    rw [List.nil_append]
    rw [searchTrailer]
    have h1 : trailerMatchAt ('\n' :: '\n' :: (ORIGINAL_COMMIT_MARKER ++ node)) = none := by
      rw [trailerMatchAt]
      have : dropLit ORIGINAL_COMMIT_MARKER ('\n' :: '\n' :: (ORIGINAL_COMMIT_MARKER ++ node)) = none := by
        rw [ORIGINAL_COMMIT_MARKER, dropLit]
        simp
      rw [this]
      rfl
    rw [h1, searchTrailer]
    have h2 : trailerMatchAt ('\n' :: (ORIGINAL_COMMIT_MARKER ++ node)) = none := by
      rw [trailerMatchAt]
      have : dropLit ORIGINAL_COMMIT_MARKER ('\n' :: (ORIGINAL_COMMIT_MARKER ++ node)) = none := by
        rw [ORIGINAL_COMMIT_MARKER, dropLit]
        simp
      rw [this]
      rfl
    rw [h2]
    have h3 : trailerMatchAt (ORIGINAL_COMMIT_MARKER ++ node) = some node :=
      trailerMatchAt_some_iff.mpr ⟨[], by simp, hn, hx⟩
    rw [ORIGINAL_COMMIT_MARKER] at h3 ⊢
    rw [List.cons_append, searchTrailer, ← List.cons_append, h3]
  | cons c d' ih =>
    obtain ⟨hmatch, hrest⟩ := searchTrailer_none_parts hd
    rw [List.cons_append, searchTrailer]
    have hnone : trailerMatchAt (c :: (d' ++ ('\n' :: '\n' :: (ORIGINAL_COMMIT_MARKER ++ node)))) = none := by
      cases hm : trailerMatchAt (c :: (d' ++ ('\n' :: '\n' :: (ORIGINAL_COMMIT_MARKER ++ node)))) with
      | none => rfl
      | some g =>
        exfalso
        obtain ⟨r, heq, hglen, hghex⟩ := trailerMatchAt_some_iff.mp hm
        rw [← List.cons_append, ← List.append_assoc] at heq
        rcases List.append_eq_append_iff.mp heq with ⟨a', ha1, ha2⟩ | ⟨w, hw1, hw2⟩
        · -- marker ++ capture would extend past the first newline
          cases a' with
          | nil =>
            rw [List.append_nil] at ha1
            have hfull : trailerMatchAt (c :: d') = some g :=
              trailerMatchAt_some_iff.mpr ⟨[], by rw [← ha1]; simp, hglen, hghex⟩
            rw [hmatch] at hfull
            cases hfull
          | cons y a'' =>
            have hy : y = '\n' := by
              have := congrArg List.head? ha2
              simp at this
              exact this.symm
            subst hy
            have hmem : ('\n' : Char) ∈ ORIGINAL_COMMIT_MARKER ++ g := by
              rw [ha1]
              exact List.mem_append_right _ (by simp)
            rcases List.mem_append.mp hmem with hmm | hmg
            · rw [ORIGINAL_COMMIT_MARKER] at hmm
              simp at hmm
            · exact hexAll_no_newline hghex hmg
        · -- a full match inside c :: d' contradicts `searchTrailer (c :: d') = none`
          have hfull : trailerMatchAt (c :: d') = some g :=
            trailerMatchAt_some_iff.mpr ⟨w, by rw [hw1, List.append_assoc], hglen, hghex⟩
          rw [hmatch] at hfull
          cases hfull
    rw [hnone]
    exact ih hrest

/-- C2: the destination commit message is the original description with
every `@` removed, a blank line, and the trailer
`UltraBlame original commit: <node>`; running the trailer pattern search
(`get_original_hash`) over it recovers exactly `node` — provided the
stripped description does not itself contain a trailer-pattern match. -/
theorem c2_message_and_trailer_recovery (desc node : List Char)
    (hn : node.length = 40) (hx : node.all isHexLowerChar = true)
    (hd : searchTrailer (pyRemoveAt desc) = none) :
    convertMessage desc node
        = pyRemoveAt desc ++ ('\n' :: '\n' :: (ORIGINAL_COMMIT_MARKER ++ node))
    ∧ ('@' : Char) ∉ pyRemoveAt desc
    ∧ searchTrailer (convertMessage desc node) = some node := by
  refine ⟨rfl, ?_, ?_⟩
  · intro hmem
    have := List.mem_filter.mp hmem
    simp at this
  · exact searchTrailer_message (pyRemoveAt desc) node hn hx hd

theorem c2_message_and_trailer_recovery_witness :
    searchTrailer (convertMessage ['F', 'i', 'x', ' ', '@', 'b'] (List.replicate 40 'a'))
        = some (List.replicate 40 'a')
    ∧ pyRemoveAt ['F', 'i', 'x', ' ', '@', 'b'] = ['F', 'i', 'x', ' ', 'b'] := by
  have h := c2_message_and_trailer_recovery ['F', 'i', 'x', ' ', '@', 'b']
    (List.replicate 40 'a') (by decide) (by decide) (by decide)
  exact ⟨h.2.2, by decide⟩

/-- C2 counterexample: when the original description itself contains text
matching the trailer pattern, `re.search` returns that earlier match, not
the appended trailer, so the original identifier is not recovered. -/
theorem c2_counterexample :
    searchTrailer (convertMessage (ORIGINAL_COMMIT_MARKER ++ List.replicate 40 'a')
        (List.replicate 40 'b'))
      = some (List.replicate 40 'a')
    ∧ List.replicate 40 'a' ≠ List.replicate 40 'b' := by
  constructor
  · decide
  · decide

/-! ### The `limit` handling of `Generator.go`

```
all_commits_done = True
if self.limit is not None:
    if len(revs) > self.limit:
        all_commits_done = False
    revs = revs[: self.limit]
...
return all_commits_done
``` -/

/-- The limit step of `Generator.go`: the candidate revision list after
truncation, together with the `all_commits_done` flag that `go` returns. -/
def goApplyLimit (limit : Option Nat) (revs : List (List Char)) :
    List (List Char) × Bool :=
  let all_commits_done := true
  match limit with
  | Option.none => (revs, all_commits_done)
  | Option.some l =>
    let all_commits_done := if revs.length > l then false else all_commits_done
    (revs.take l, all_commits_done)

/-- C5: when `limit` is set and the mined list is longer, the list is
truncated to its first `limit` elements and the run reports
`completed = false`; when `limit` is unset or not exceeded, the full list
is kept and the run reports `completed = true`. -/
theorem c5_limit_truncation (limit : Option Nat) (revs : List (List Char)) :
    (∀ l, limit = Option.some l → revs.length > l →
        goApplyLimit limit revs = (revs.take l, false) ∧ (revs.take l).length = l)
    ∧ (limit = Option.none → goApplyLimit limit revs = (revs, true))
    ∧ (∀ l, limit = Option.some l → revs.length ≤ l →
        goApplyLimit limit revs = (revs, true)) := by
  refine ⟨?_, ?_, ?_⟩
  · rintro l rfl hgt
    constructor
    · simp [goApplyLimit, hgt]
    · simp [List.length_take]
      omega
  · rintro rfl
    simp [goApplyLimit]
  · rintro l rfl hle
    have hnot : ¬ revs.length > l := by omega
    simp [goApplyLimit, hnot, List.take_of_length_le hle]

theorem c5_limit_truncation_witness :
    goApplyLimit (Option.some 1) [['a'], ['b']] = ([['a']], false)
    ∧ goApplyLimit Option.none [['a'], ['b']] = ([['a'], ['b']], true)
    ∧ goApplyLimit (Option.some 3) [['a'], ['b']] = ([['a'], ['b']], true) :=
  ⟨((c5_limit_truncation (Option.some 1) [['a'], ['b']]).1 1 rfl (by decide)).1,
   (c5_limit_truncation Option.none [['a'], ['b']]).2.1 rfl,
   (c5_limit_truncation (Option.some 3) [['a'], ['b']]).2.2 3 rfl (by decide)⟩

/-! ### Comment removal (`Generator.remove_comments`) -/

/-- Outcome of the HTTP call to the rust-code-analysis server: a response
with a status and body, or an `aiohttp.ClientConnectionError`. -/
inductive CommentServiceResult
  | response (status : Nat) (body : List Nat)
  | connectionError
deriving DecidableEq

/-- `Generator.remove_comments`: given the original content and the
service outcome, the content returned and whether `logger.error` was
called.  Status 200 replaces the content with the response body; the code
logs an error for any status not in `[200, 204, 404]`; a connection error
is caught and logged.  In all cases the (possibly unchanged) content is
returned. -/
def removeComments (content : List Nat) : CommentServiceResult → List Nat × Bool
  | .response s body =>
    if s == 200 then (body, false)
    else if s == 204 || s == 404 then (content, false)
    else (content, true)
  | .connectionError => (content, true)

/-- C9: the comment-removal call returns the service's rewritten bytes
exactly on status 200; statuses 204 and 404 return the original content
with no error logged; any other status or a connection failure logs an
error and returns the original content; the call never raises for these
outcomes (it is a total function of the outcome). -/
theorem c9_remove_comments (content body : List Nat) :
    removeComments content (.response 200 body) = (body, false)
    ∧ removeComments content (.response 204 body) = (content, false)
    ∧ removeComments content (.response 404 body) = (content, false)
    ∧ (∀ s, s ≠ 200 → s ≠ 204 → s ≠ 404 →
        removeComments content (.response s body) = (content, true))
    ∧ removeComments content .connectionError = (content, true) := by
  refine ⟨rfl, rfl, rfl, ?_, rfl⟩
  intro s h200 h204 h404
  simp [removeComments, h200, h204, h404]

theorem c9_remove_comments_witness :
    removeComments [1, 2] (.response 200 [3]) = ([3], false)
    ∧ removeComments [1, 2] (.response 500 [3]) = ([1, 2], true) :=
  ⟨(c9_remove_comments [1, 2] [3]).1,
   (c9_remove_comments [1, 2] [3]).2.2.2.1 500 (by decide) (by decide) (by decide)⟩

/-! ### Commit metadata mining (`hg_log`) and the replay loop (`Generator.go`) -/

/-- The `Commit` class of generator.py (`node`, `parents`, `desc`). -/
structure Commit where
  node : List Char
  parents : List (List Char)
  desc : List Char
deriving DecidableEq

/-- `hg_log` builds a `Commit` for each record of the template
`"{node}\0{p1node}\0{desc}\0"`, with
`parents = rev[1].decode("ascii").split(" ")` — splitting only the
`p1node` field. -/
def hgLog (recs : List (List Char × List Char × List Char)) : List Commit :=
  recs.map (fun r => { node := r.1, parents := pySplitSep ' ' r.2.1, desc := r.2.2 })

/-- C10: every `Commit` produced by `hg_log` has a parents list of exactly
one element — the `p1node` field (which, being a single 40-hex-digit
node, contains no space) — regardless of how many parents the source
commit actually has. -/
theorem c10_single_parent (recs : List (List Char × List Char × List Char))
    (h : ∀ r ∈ recs, (' ' : Char) ∉ r.2.1) :
    (hgLog recs).map Commit.parents = recs.map (fun r => [r.2.1])
    ∧ ∀ c ∈ hgLog recs, c.parents.length = 1 := by
  constructor
  · rw [hgLog, List.map_map]
    apply List.map_congr_left
    intro r hr
    simp [pySplitSep_of_not_mem (h r hr)]
  · intro c hc
    obtain ⟨r, hr, rfl⟩ := List.mem_map.mp hc
    simp [pySplitSep_of_not_mem (h r hr)]

theorem c10_single_parent_witness :
    (hgLog [(['a'], ['b', 'c'], ['d'])]).map Commit.parents = [[['b', 'c']]] :=
  (c10_single_parent [(['a'], ['b', 'c'], ['d'])] (by decide)).1

/-- The phase of `Generator.convert` in which an exception is raised:
during the per-file transform (`write_file` gather) or while sealing the
destination commit (`index.write` / `write_tree` / `create_commit`). -/
inductive ConvertPhase
  | transform
  | seal
deriving DecidableEq

structure ConvertError where
  phase : ConvertPhase
deriving DecidableEq

def exceptOk {ε α : Type} : Except ε α → Bool
  | .ok _ => true
  | .error _ => false

/-- Python `repr` of a list of strings, as interpolated by
`f"{commit.parents}"`. -/
def pyReprStrList (l : List (List Char)) : List Char :=
  ['['] ++ (List.intercalate [',', ' '] (l.map (fun s => '\'' :: (s ++ ['\''])))) ++ [']']

/-- The errors.txt line `f"{commit.node} - {commit.parents}\n"` (without
the final newline). -/
def errorLine (c : Commit) : List Char :=
  c.node ++ [' ', '-', ' '] ++ pyReprStrList c.parents

/-- The replay loop of `Generator.go`:

```
for commit in tqdm(commits):
    try:
        await self.convert(hg, commit)
    except Exception as e:
        logger.error(...); traceback.print_exc()
        f.write(f"{commit.node} - {commit.parents}\n")
```

The `try/except Exception` wraps the whole `convert` call — including the
sealing steps — so every failure is handled per commit.  Returns the
errors.txt lines appended and the commits successfully converted. -/
def goReplayLoop (convert : Commit → Except ConvertError Unit) :
    List Commit → List (List Char) → List (List Char) × List Commit
  | [], log => (log, [])
  | c :: rest, log =>
    match convert c with
    | .ok _ =>
      let r := goReplayLoop convert rest log
      (r.1, c :: r.2)
    | .error _ => goReplayLoop convert rest (log ++ [errorLine c])

theorem goReplayLoop_log (convert : Commit → Except ConvertError Unit) :
    ∀ (commits : List Commit) (log : List (List Char)),
      goReplayLoop convert commits log
        = (log ++ (commits.filter (fun c => !exceptOk (convert c))).map errorLine,
           commits.filter (fun c => exceptOk (convert c))) := by
  intro commits
  induction commits with
  | nil => simp [goReplayLoop]
  | cons c rest ih =>
    intro log
    rw [goReplayLoop]
    cases hc : convert c with
    | ok u =>
      have : exceptOk (convert c) = true := by rw [hc]; rfl
      simp [ih, this]
    | error e =>
      have : exceptOk (convert c) = false := by rw [hc]; rfl
      simp [ih, this]

/-- C4 amended: every exception raised while building a commit's
destination counterpart — whatever its phase, transform or sealing — is
caught at the commit boundary, the line `<node> - <parents>` is appended
to errors.txt, and processing continues with the next commit; no phase is
promoted to whole-run failure by the loop. -/
theorem c4_per_commit_error_handling (convert : Commit → Except ConvertError Unit)
    (commits : List Commit) :
    (goReplayLoop convert commits []).1
        = (commits.filter (fun c => !exceptOk (convert c))).map errorLine
    ∧ (goReplayLoop convert commits []).2
        = commits.filter (fun c => exceptOk (convert c)) := by
  rw [goReplayLoop_log]
  simp

/-- C4 counterexample: a conversion that fails *during sealing* on the
first commit is nonetheless caught at the commit boundary, logged as
`c1 - ['p1']`, and the second commit is still converted — the run does
not fail. -/
theorem c4_counterexample :
    goReplayLoop
      (fun c => if c.node = ['c', '1'] then Except.error ⟨ConvertPhase.seal⟩ else Except.ok ())
      [⟨['c', '1'], [['p', '1']], []⟩, ⟨['c', '2'], [['c', '1']], []⟩] []
      = ([['c', '1', ' ', '-', ' ', '[', '\'', 'p', '1', '\'', ']']],
         [⟨['c', '2'], [['c', '1']], []⟩]) := by
  decide

/-! ### Blame reconstruction (`viewer.py`, `html`) -/

/-- Whether `pat` occurs in `content` at byte offset `i`. -/
def occursAt (content pat : List Nat) (i : Nat) : Bool :=
  pat.isPrefixOf (content.drop i)

/-- Python `content.find(pat, start)` over bytes: the smallest index
`i ≥ start` at which `pat` occurs, or `-1` if there is none. -/
def pyFindFrom (content pat : List Nat) (i : Nat) : Int :=
  if i ≤ content.length then
    if occursAt content pat i then (i : Int)
    else pyFindFrom content pat (i + 1)
  else -1
termination_by content.length + 1 - i

theorem pyFindFrom_spec (content pat : List Nat) :
    ∀ (k i : Nat), content.length + 1 - i ≤ k →
      (pyFindFrom content pat i = -1 →
        ∀ j : Nat, i ≤ j → j ≤ content.length → occursAt content pat j = false)
      ∧ (∀ n : Nat, pyFindFrom content pat i = (n : Int) →
          i ≤ n ∧ occursAt content pat n = true
          ∧ ∀ j : Nat, i ≤ j → j < n → occursAt content pat j = false) := by
  intro k
  induction k with
  | zero =>
    intro i hk
    have hi : content.length < i := by omega
    have hfind : pyFindFrom content pat i = -1 := by
      rw [pyFindFrom]
      rw [if_neg (by omega)]
    constructor
    · intro _ j hij hjlen
      omega
    · intro n hn
      rw [hfind] at hn
      exact absurd hn (by omega)
  | succ k ih =>
    intro i hk
    by_cases hi : i ≤ content.length
    · by_cases hocc : occursAt content pat i = true
      · have hfind : pyFindFrom content pat i = (i : Int) := by
          rw [pyFindFrom, if_pos hi, if_pos hocc]
        constructor
        · intro habs
          rw [hfind] at habs
          exact absurd habs (by omega)
        · intro n hn
          rw [hfind] at hn
          have : n = i := by omega
          subst this
          exact ⟨le_rfl, hocc, fun j h1 h2 => absurd (Nat.lt_of_le_of_lt h1 h2) (lt_irrefl n)⟩
      · have hfind : pyFindFrom content pat i = pyFindFrom content pat (i + 1) := by
          rw [pyFindFrom, if_pos hi, if_neg hocc]
        have ihnext := ih (i + 1) (by omega)
        constructor
        · intro hnone j hij hjlen
          rcases Nat.eq_or_lt_of_le hij with rfl | hlt
          · exact Bool.eq_false_iff.mpr hocc
          · exact ihnext.1 (by rw [← hfind]; exact hnone) j hlt hjlen
        · intro n hn
          obtain ⟨h1, h2, h3⟩ := ihnext.2 n (by rw [← hfind]; exact hn)
          refine ⟨by omega, h2, ?_⟩
          intro j hij hjn
          rcases Nat.eq_or_lt_of_le hij with rfl | hlt
          · simpa using hocc
          · exact h3 j hlt hjn
    · have hfind : pyFindFrom content pat i = -1 := by
        rw [pyFindFrom, if_neg hi]
      constructor
      · intro _ j hij hjlen
        omega
      · intro n hn
        rw [hfind] at hn
        exact absurd hn (by omega)

/-- The attribution loop of `viewer.py`'s `html`:

```
start = -1
prev_blame_line = None
for blame_line in ...parse_blame(...):
    new_start = original_file_content.find(blame_line.context.encode("utf-8"), start + 1)
    if start == -1:
        start = 0
    content = original_file_content[start:new_start]   # → prev_blame_line
    start = new_start
    prev_blame_line = blame_line
content = original_file_content[start:]                # → prev_blame_line
```

Each produced record is `(attributed blame-line index, lo, hi)`: the slice
`original_file_content[lo:hi]` whose text is credited to that blame line
(`Option.none` for the text before the first match).  `start` carries the
*start offset* of the previous match. -/
def viewerSpans (content : List Nat) :
    Int → Option Nat → Nat → List (List Nat) → List (Option Nat × Int × Int)
  | start, prev, _, [] => [(prev, start, (content.length : Int))]
  | start, prev, i, ctx :: rest =>
    let ns := pyFindFrom content ctx (start + 1).toNat
    let st := if start = -1 then 0 else start
    (prev, st, ns) :: viewerSpans content ns (Option.some i) (i + 1) rest

def viewerHtmlSpans (content : List Nat) (contexts : List (List Nat)) :
    List (Option Nat × Int × Int) :=
  viewerSpans content (-1) Option.none 0 contexts

/-- C3 counterexample: original content `b"ab b"`, blame contexts
`[b"ab", b"b"]`.  The first context matches at offset 0 (end offset 2).
The code then searches from `start + 1 = 1` — strictly after the previous
match's *start* — and finds `b"b"` at offset 1, *inside* the previous
matched span, not at the next occurrence after the previous match's end
(offset 3).  Consequently the span `[0,1)` (a strict sub-span of the
first match) goes to blame line 0 and `[1,4)` goes to blame line 1, so
neither is the first match's span attributed to line 0 nor is line 1's
span located after line 0's end. -/
theorem c3_counterexample :
    viewerHtmlSpans [97, 98, 32, 98] [[97, 98], [98]]
      = [(Option.none, 0, 0), (Option.some 0, 0, 1), (Option.some 1, 1, 4)]
    ∧ pyFindFrom [97, 98, 32, 98] [97, 98] 0 = 0
    ∧ pyFindFrom [97, 98, 32, 98] [98] 1 = 1
    ∧ ¬((0 : Int) + 2 ≤ 1) := by
  refine ⟨?_, ?_, ?_, by decide⟩
  · simp [viewerHtmlSpans, viewerSpans, pyFindFrom, occursAt, List.isPrefixOf]
  · simp [pyFindFrom, occursAt, List.isPrefixOf]
  · simp [pyFindFrom, occursAt, List.isPrefixOf]

/-- C3 amended: after a blame line whose context matched at offset
`start`, the next blame line's context is located at the *least*
occurrence strictly after the previous match's **start** offset; the byte
span from the previous match's start to the current match's start is
attributed to the previous blame line, and the final blame line receives
the span from its own match start to the end of the file. -/
theorem c3_forward_search (content ctx : List Nat) (rest : List (List Nat))
    (start : Int) (k : Nat) (hs : 0 ≤ start) :
    viewerSpans content start (Option.some k) (k + 1) (ctx :: rest)
        = (Option.some k, start, pyFindFrom content ctx (start + 1).toNat)
            :: viewerSpans content (pyFindFrom content ctx (start + 1).toNat)
                (Option.some (k + 1)) (k + 2) rest
    ∧ (∀ n : Nat, pyFindFrom content ctx (start + 1).toNat = (n : Int) →
        occursAt content ctx n = true ∧ start + 1 ≤ (n : Int)
        ∧ ∀ j : Nat, start + 1 ≤ (j : Int) → j < n → occursAt content ctx j = false)
    ∧ viewerSpans content start (Option.some k) (k + 1) []
        = [(Option.some k, start, (content.length : Int))] := by
  have htn : ((start + 1).toNat : Int) = start + 1 := Int.toNat_of_nonneg (by omega)
  refine ⟨?_, ?_, rfl⟩
  · rw [viewerSpans]
    have : ¬ start = -1 := by omega
    simp [this]
  · intro n hn
    obtain ⟨h1, h2, h3⟩ :=
      ((pyFindFrom_spec content ctx (content.length + 1 - (start + 1).toNat)
        (start + 1).toNat le_rfl).2) n hn
    refine ⟨h2, by omega, ?_⟩
    intro j hj1 hj2
    exact h3 j (by omega) hj2

theorem c3_forward_search_witness :
    viewerSpans [97, 32, 98] 0 (Option.some 0) 1 [[98]]
        = [(Option.some 0, 0, 2), (Option.some 1, 2, 3)]
    ∧ occursAt [97, 32, 98] [98] 2 = true := by
  have h := c3_forward_search [97, 32, 98] [98] [] 0 0 (by decide)
  have ht : ((0 : Int) + 1).toNat = 1 := by decide
  have hfind : pyFindFrom [97, 32, 98] [98] 1 = ((2 : Nat) : Int) := by
    simp [pyFindFrom, occursAt, List.isPrefixOf]
  refine ⟨?_, (h.2.1 2 (by rw [ht]; exact hfind)).1⟩
  simp [viewerSpans, hfind, pyFindFrom, occursAt, List.isPrefixOf]

/-! ### Mapping index (`utils.py`, `get_original_hash` and
`get_commit_mapping`)

A destination repository is modelled as its walked history: the list of
(commit identifier, commit message) pairs produced by
`repo.walk(repo.head.target, GIT_SORT_TOPOLOGICAL | GIT_SORT_REVERSE)`,
i.e. topologically from the initial commit to HEAD. -/

/-- The Python exceptions the mapping code can raise: `repo[rev]` raises
`KeyError` for an unknown revision; `ORIGINAL_COMMIT_REGEX.search(...)`
returns `None` when there is no match, and `.group(1)` on `None` raises
`AttributeError`. -/
inductive PyErr
  | keyError
  | attributeError
deriving DecidableEq

instance {ε α : Type} [DecidableEq ε] [DecidableEq α] : DecidableEq (Except ε α) := fun a b =>
  match a, b with
  | Except.ok x, Except.ok y =>
    if h : x = y then isTrue (by rw [h]) else isFalse (fun hx => h (Except.ok.inj hx))
  | Except.ok _, Except.error _ => isFalse (fun hx => Except.noConfusion hx)
  | Except.error _, Except.ok _ => isFalse (fun hx => Except.noConfusion hx)
  | Except.error x, Except.error y =>
    if h : x = y then isTrue (by rw [h]) else isFalse (fun hx => h (Except.error.inj hx))

/-- `get_original_hash(repo, rev)`. -/
def getOriginalHash (repo : List (List Char × List Char)) (rev : List Char) :
    Except PyErr (List Char) :=
  match List.lookup rev repo with
  | Option.none => Except.error PyErr.keyError
  | Option.some msg =>
    match searchTrailer msg with
    | Option.none => Except.error PyErr.attributeError
    | Option.some h => Except.ok h

/-- Python dict assignment `d[k] = v`: replace the value at an existing
key (keeping insertion order), else append. -/
def dictSet (d : List (List Char × List Char)) (k v : List Char) :
    List (List Char × List Char) :=
  match d with
  | [] => [(k, v)]
  | (k', v') :: rest =>
    if k' = k then (k', v) :: rest else (k', v') :: dictSet rest k v

def getCommitMappingAux (repo : List (List Char × List Char)) :
    List (List Char × List Char) →
      List (List Char × List Char) × List (List Char × List Char) →
      Except PyErr (List (List Char × List Char) × List (List Char × List Char))
  | [], acc => Except.ok acc
  | (hex, _) :: rest, (t2o, o2t) =>
    match getOriginalHash repo hex with
    | Except.error e => Except.error e
    | Except.ok h => getCommitMappingAux repo rest (dictSet t2o hex h, dictSet o2t h hex)

/-- `get_commit_mapping(repo_path)`: for every walked commit, extract the
original hash and fill `transformed_to_original[commit.hex]` and
`original_to_transformed[original_hash]`. -/
def getCommitMapping (repo : List (List Char × List Char)) :
    Except PyErr (List (List Char × List Char) × List (List Char × List Char)) :=
  getCommitMappingAux repo repo ([], [])

theorem dictSet_fresh {d : List (List Char × List Char)} {k v : List Char}
    (h : ∀ p ∈ d, p.1 ≠ k) : dictSet d k v = d ++ [(k, v)] := by
  induction d with
  | nil => rfl
  | cons q rest ih =>
    have hq : q.1 ≠ k := h q (by simp)
    rw [dictSet]
    simp only [hq, if_false]
    rw [ih (fun p hp => h p (by simp [hp]))]
    rfl

theorem lookup_of_mem_nodup :
    ∀ (l : List (List Char × List Char)) (p : List Char × List Char),
      (l.map Prod.fst).Nodup → p ∈ l → List.lookup p.1 l = Option.some p.2 := by
  intro l
  induction l with
  | nil => simp
  | cons q rest ih =>
    intro p hnd hp
    have hnd' : (rest.map Prod.fst).Nodup := (List.nodup_cons.mp hnd).2
    rcases List.mem_cons.mp hp with rfl | hp'
    · simp [List.lookup]
    · have hne : q.1 ≠ p.1 := by
        intro hx
        exact (List.nodup_cons.mp hnd).1 (hx ▸ List.mem_map_of_mem Prod.fst hp')
      rw [List.lookup]
      have : (p.1 == q.1) = false := by
        simp
        exact fun hx => hne hx.symm
      rw [this]
      exact ih p hnd' hp'

theorem getCommitMappingAux_fresh (repo : List (List Char × List Char))
    (f : List Char → List Char) :
    ∀ (walk : List (List Char × List Char))
      (t2o o2t : List (List Char × List Char)),
      (∀ p ∈ walk, getOriginalHash repo p.1 = Except.ok (f p.1)) →
      (walk.map Prod.fst).Nodup →
      (walk.map (fun p => f p.1)).Nodup →
      (∀ p ∈ walk, ∀ q ∈ t2o, q.1 ≠ p.1) →
      (∀ p ∈ walk, ∀ q ∈ o2t, q.1 ≠ f p.1) →
      getCommitMappingAux repo walk (t2o, o2t)
        = Except.ok (t2o ++ walk.map (fun p => (p.1, f p.1)),
                     o2t ++ walk.map (fun p => (f p.1, p.1))) := by
  intro walk
  induction walk with
  | nil =>
    intro t2o o2t _ _ _ _ _
    simp [getCommitMappingAux]
  | cons p rest ih =>
    intro t2o o2t hok hk hv ht ho
    obtain ⟨hex, msg⟩ := p
    rw [getCommitMappingAux]
    rw [hok (hex, msg) (by simp)]
    dsimp only
    have h1 : dictSet t2o hex (f hex) = t2o ++ [(hex, f hex)] :=
      dictSet_fresh (ht (hex, msg) (by simp))
    have h2 : dictSet o2t (f hex) hex = o2t ++ [(f hex, hex)] :=
      dictSet_fresh (ho (hex, msg) (by simp))
    rw [h1, h2]
    rw [ih (t2o ++ [(hex, f hex)]) (o2t ++ [(f hex, hex)])
      (fun q hq => hok q (by simp [hq]))
      (List.nodup_cons.mp (by simpa using hk)).2
      (List.nodup_cons.mp (by simpa using hv)).2
      ?_ ?_]
    · simp
    · intro q hq r hr
      rcases List.mem_append.mp hr with hr | hr
      · exact ht q (by simp [hq]) r hr
      · simp at hr
        subst hr
        intro hx
        have hx' : hex = q.1 := hx
        have hkc : hex ∉ rest.map Prod.fst := by
          rw [List.map_cons] at hk
          exact (List.nodup_cons.mp hk).1
        exact hkc (by rw [hx']; exact List.mem_map_of_mem Prod.fst hq)
    · intro q hq r hr
      rcases List.mem_append.mp hr with hr | hr
      · exact ho q (by simp [hq]) r hr
      · simp at hr
        subst hr
        intro hx
        have hx' : f hex = f q.1 := hx
        have hvc : f hex ∉ rest.map (fun p => f p.1) := by
          rw [List.map_cons] at hv
          exact (List.nodup_cons.mp hv).1
        exact hvc (by rw [hx']; exact List.mem_map.mpr ⟨q, hq, rfl⟩)

/-- C7 amended: walking the destination history oldest-first,
`get_commit_mapping` returns the two dictionaries keyed by commit
identifier; *provided the walked commits' identifiers are distinct and
their embedded original identifiers are pairwise distinct*, the two maps
are inverse to each other over the walked history.  Requesting a revision
absent from the history fails with `KeyError` (a lookup error), and a
revision whose message has no well-formed trailer fails with
`AttributeError`. -/
theorem c7_commit_mapping (repo : List (List Char × List Char))
    (f : List Char → List Char)
    (hkeys : (repo.map Prod.fst).Nodup)
    (htrail : ∀ p ∈ repo, searchTrailer p.2 = Option.some (f p.1))
    (hinj : (repo.map (fun p => f p.1)).Nodup) :
    getCommitMapping repo
        = Except.ok (repo.map (fun p => (p.1, f p.1)), repo.map (fun p => (f p.1, p.1)))
    ∧ (∀ p ∈ repo,
        List.lookup p.1 (repo.map (fun q => (q.1, f q.1))) = Option.some (f p.1)
        ∧ List.lookup (f p.1) (repo.map (fun q => (f q.1, q.1))) = Option.some p.1)
    ∧ (∀ rev, List.lookup rev repo = Option.none →
        getOriginalHash repo rev = Except.error PyErr.keyError)
    ∧ (∀ rev msg, List.lookup rev repo = Option.some msg →
        searchTrailer msg = Option.none →
        getOriginalHash repo rev = Except.error PyErr.attributeError) := by
  have hok : ∀ p ∈ repo, getOriginalHash repo p.1 = Except.ok (f p.1) := by
    intro p hp
    rw [getOriginalHash, lookup_of_mem_nodup repo p hkeys hp]
    simp [htrail p hp]
  refine ⟨?_, ?_, ?_, ?_⟩
  · rw [getCommitMapping,
      getCommitMappingAux_fresh repo f repo [] [] hok hkeys hinj (by simp) (by simp)]
    simp
  · intro p hp
    constructor
    · have := lookup_of_mem_nodup (repo.map (fun q => (q.1, f q.1))) (p.1, f p.1)
        (by simpa [Function.comp] using hkeys)
        (List.mem_map_of_mem _ hp)
      simpa using this
    · have := lookup_of_mem_nodup (repo.map (fun q => (f q.1, q.1))) (f p.1, p.1)
        (by simpa [Function.comp] using hinj)
        (List.mem_map_of_mem _ hp)
      simpa using this
  · intro rev hrev
    rw [getOriginalHash, hrev]
  · intro rev msg hrev hsearch
    rw [getOriginalHash, hrev]
    simp [hsearch]

theorem c7_commit_mapping_witness :
    getCommitMapping [(['d', '1'], ORIGINAL_COMMIT_MARKER ++ List.replicate 40 'a')]
        = Except.ok ([(['d', '1'], List.replicate 40 'a')],
                     [(List.replicate 40 'a', ['d', '1'])])
    ∧ getOriginalHash [(['d', '1'], ORIGINAL_COMMIT_MARKER ++ List.replicate 40 'a')] ['d', '2']
        = Except.error PyErr.keyError := by
  have h := c7_commit_mapping
    [(['d', '1'], ORIGINAL_COMMIT_MARKER ++ List.replicate 40 'a')]
    (fun _ => List.replicate 40 'a')
    (by decide)
    (by intro p hp; simp at hp; subst hp; decide)
    (by decide)
  exact ⟨by simpa using h.1, h.2.2.1 ['d', '2'] (by decide)⟩

/-- C7 counterexample: two destination commits carrying the *same*
original-commit trailer.  `get_commit_mapping` succeeds, but
`original_to_transformed` keeps only the last destination commit, so the
two maps are not inverse to each other over the walked history:
`d1 ↦ a…a` in one direction but `a…a ↦ d2` in the other. -/
theorem c7_counterexample :
    getCommitMapping
        [(['d', '1'], ORIGINAL_COMMIT_MARKER ++ List.replicate 40 'a'),
         (['d', '2'], ORIGINAL_COMMIT_MARKER ++ List.replicate 40 'a')]
      = Except.ok
          ([(['d', '1'], List.replicate 40 'a'), (['d', '2'], List.replicate 40 'a')],
           [(List.replicate 40 'a', ['d', '2'])])
    ∧ List.lookup (List.replicate 40 'a') [(List.replicate 40 'a', ['d', '2'])]
        = Option.some ['d', '2']
    ∧ (['d', '2'] : List Char) ≠ ['d', '1'] := by
  refine ⟨by decide, by decide, by decide⟩

/-! ### CLI wiring (bin/microannotate-generate.py) -/

/-- The Python values that can land in the pipeline's parameters. -/
inductive PyVal
  | none
  | bool (b : Bool)
  | str (s : List Char)
deriving DecidableEq

/-- The fields stored by `Generator.__init__` (tokenize →
`tokenize_enabled`, remove_comments → `remove_comments_enabled`). -/
structure GeneratorConfig where
  repo_dir : PyVal
  repo_out_dir : PyVal
  rev_start : PyVal
  rev_end : PyVal
  limit : PyVal
  tokenize_enabled : PyVal
  remove_comments_enabled : PyVal
deriving DecidableEq

/-- `generator.generate(repo_dir, repo_out_dir, rev_start=0, rev_end="tip",
limit=None, tokenize=True, remove_comments=False)` forwarding to
`Generator.__init__` in the same order. -/
def generateCall (repo_dir repo_out_dir rev_start rev_end limit tokenize
    remove_comments : PyVal) : GeneratorConfig :=
  ⟨repo_dir, repo_out_dir, rev_start, rev_end, limit, tokenize, remove_comments⟩

/-- The call in `bin/microannotate-generate.py`:

```
generator.generate(
    args.repository_dir, repo_out_dir,
    args.rev_start, args.rev_end,
    args.tokenize, args.remove_comments)
```

Six positional arguments against the seven-parameter signature: the
tokenize flag lands in `limit`, the remove-comments flag lands in
`tokenize`, and `remove_comments` keeps its declared default `False`. -/
def binGenerateMain (repository_dir repo_out_dir rev_start rev_end : List Char)
    (tokenizeFlag remove_commentsFlag : Bool) : GeneratorConfig :=
  generateCall (.str repository_dir) (.str repo_out_dir) (.str rev_start)
    (.str rev_end) (.bool tokenizeFlag) (.bool remove_commentsFlag) (.bool false)

/-- C6 (code bug): with the argparse defaults (`--tokenize` is
`store_true` with `default=True`, `--remove-comments` defaults to
`False`), the pipeline is constructed with `tokenize_enabled = False` and
`limit = True` — not, as the flags are documented to mean, tokenization
enabled and no commit-count limit. -/
theorem c6_cli_argument_bug :
    (binGenerateMain ['r'] ['o'] ['0'] ['t', 'i', 'p'] true false).tokenize_enabled
        = PyVal.bool false
    ∧ (binGenerateMain ['r'] ['o'] ['0'] ['t', 'i', 'p'] true false).limit
        = PyVal.bool true
    ∧ (binGenerateMain ['r'] ['o'] ['0'] ['t', 'i', 'p'] true false).limit ≠ PyVal.none
    ∧ (binGenerateMain ['r'] ['o'] ['0'] ['t', 'i', 'p'] true false).remove_comments_enabled
        = PyVal.bool false := by
  refine ⟨rfl, rfl, ?_, rfl⟩
  decide

end Microannotate
